import Mathlib

/-!
Shallow embedding of the release-selection / verification / safe-extraction
pipeline of `BuildDeb.py` and `getLatestVersionAndURLWithGitHubAPI.py`.

Modelling conventions:
* Filesystem paths are lists of path components (`List String`), always read
  as absolute paths (the working directory is abstracted away; `Path.absolute`
  on an already absolute path is the identity).  Symbolic links are not
  modelled: `Path.resolve` is modelled as purely lexical normalisation
  (dropping `.` components and folding `..`, clamped at the root), which is
  its behaviour on link-free trees.
* `bytes` / `str` values are `List Nat` / `String` (or `List Char` where the
  proofs need character-level reasoning).
* Python exceptions become explicit error values (`Except`); the payload of
  each error value records exactly the data the corresponding Python
  exception message carries.
* Network, GPG and tar I/O are oracles: their *results* (release records,
  signer fingerprints of the valid signatures, archive entries) are inputs of
  the embedded functions, while the control flow acting on those results is
  translated from the source.
-/

/-! ## Path model (`pathlib` fragment used by `isSubdir` / `unpack`) -/

/-- Lexical normalisation performed by `Path.resolve()` on a link-free tree:
`.` components disappear, `..` removes the preceding component and is clamped
at the root. The resulting component list contains neither `.` nor `..`. -/
def resolveComps (l : List String) : List String :=
  l.foldl (fun acc c => if c = "." then acc else if c = ".." then acc.dropLast else acc ++ [c]) []

/-- Payload of the `ValueError` raised by `PurePath.relative_to`: the message
names the child path and the parent path (and nothing else). -/
structure SubpathError where
  child : List String
  parent : List String
deriving DecidableEq, Repr

/-- `child.relative_to(parent)`: succeeds with the suffix when `parent` is a
lexical prefix of `child`, otherwise raises `ValueError` naming both paths. -/
def relativeTo (child parent : List String) : Except SubpathError (List String) :=
  if parent.isPrefixOf child then .ok (child.drop parent.length)
  else .error ⟨child, parent⟩

/-- `isSubdir` from `BuildDeb.py` (lines 136-142): resolve both paths, take
`child.relative_to(parent)` (which may raise), then return `False` iff some
part of the relative path equals `".."`. -/
def isSubdir (parent child : List String) : Except SubpathError Bool :=
  let p := resolveComps parent
  let c := resolveComps child
  match relativeTo c p with
  | .error e => .error e
  | .ok rel => if rel.contains ".." then .ok false else .ok true

/-! ## Extraction model (`unpack`, lines 145-162) -/

/-- A tar archive member: its name, split into path components exactly as
`pathlib` splits the name string, and its size in bytes. -/
structure ArchiveEntry where
  name : List String
  size : Nat
deriving DecidableEq, Repr

/-- `struct.unpack("<I", lastFourBytes)[0]`: the little-endian `uint32` held
in the final four bytes of the compressed archive file. -/
def trailerSize (bytes : List Nat) : Nat :=
  match bytes.reverse with
  | d :: c :: b :: a :: _ => a + b * 256 + c * 65536 + d * 16777216
  | _ => 0

/-- Observable outcome of `unpack`: the paths actually written (resolved,
in order), the progress-bar state (`total=` argument of `tqdm`, and the
`set_postfix`/`update` calls with the entry's root-relative name and size),
and the exception that aborted the loop, if any. -/
structure UnpackResult where
  progressTotal : Nat
  written : List (List String)
  updates : List (List String × Nat)
  error : Option SubpathError
deriving DecidableEq, Repr

/-- The entry loop of `unpack`: for each member `f`, form
`fp = (extrDir / f.name).absolute()`, guard with `isSubdir(extrDir, fp)`
(whose `ValueError` aborts the whole loop), and in the `True` branch extract
the member and report progress.  `extrDir` is the already-resolved target
directory. -/
def runEntries (extrDir : List String) : List ArchiveEntry → (List (List String) × List (List String × Nat) × Option SubpathError)
  | [] => ([], [], none)
  | e :: rest =>
    match isSubdir extrDir (extrDir ++ e.name) with
    | .error err => ([], [], some err)
    | .ok true =>
      let r := runEntries extrDir rest
      (resolveComps (extrDir ++ e.name) :: r.1, (e.name, e.size) :: r.2.1, r.2.2)
    | .ok false => runEntries extrDir rest

/-- `unpack(archPath, extrDir)`: read the declared uncompressed size from the
archive trailer (used as the progress-bar total), resolve `extrDir`, then run
the entry loop.  The tar member list is an oracle input alongside the raw
file bytes. -/
def unpack (fileBytes : List Nat) (extrDir : List String) (entries : List ArchiveEntry) : UnpackResult :=
  let d := resolveComps extrDir
  let r := runEntries d entries
  ⟨trailerSize fileBytes, r.1, r.2.1, r.2.2⟩

deriving instance DecidableEq for Except

/-! ## Hash-manifest parsing (`HashesFilesDialect` / `parseHashesFile`, lines 166-177)

The `csv.reader` configured by `HashesFilesDialect` (`delimiter=" "`,
`quoting=QUOTE_NONE`) performs no quote processing: it splits the input into
lines (recognising `\r`, `\n` and `\r\n` as terminators, with no row for the
empty rest after a final terminator) and splits each line on single spaces; a
blank line yields the empty row. -/

/-- Python exceptions observable in the embedded `BuildDeb.py` fragment. -/
inductive PyError where
  | indexError
  | keyError (key : List Char)
  | attributeError
  | wrongPublicKeys (fprs : List String)
  | badHash
deriving DecidableEq, Repr

/-- Split a character list on every occurrence of `c` (no quoting, matching
the reader's field splitting and its line splitting). -/
def splitOnChar (c : Char) : List Char → List (List Char)
  | [] => [[]]
  | x :: xs =>
    let r := splitOnChar c xs
    if x = c then [] :: r
    else
      match r with
      | [] => [[x]]
      | h :: t => (x :: h) :: t

/-- Normalise the three line terminators the `csv` reader recognises
(`\r\n`, `\r`, `\n`) to `\n`. -/
def normNewlines : List Char → List Char
  | [] => []
  | c :: rest =>
    if c = '\r' then
      match rest with
      | [] => ['\n']
      | d :: rest2 => if d = '\n' then '\n' :: normNewlines rest2 else '\n' :: normNewlines (d :: rest2)
    else c :: normNewlines rest

/-- A final line terminator produces no extra row: drop the trailing empty
segment, if any. -/
def dropLastEmpty (l : List (List Char)) : List (List Char) :=
  if l.getLast? = some ([] : List Char) then l.dropLast else l

/-- The lines the `csv` reader sees in the given text. -/
def splitLines (l : List Char) : List (List Char) :=
  dropLastEmpty (splitOnChar '\n' (normNewlines l))

/-- Fields of one line: a blank line is the empty row, any other line is
split on single spaces. -/
def rowFields (line : List Char) : List (List Char) :=
  if line = [] then [] else splitOnChar ' ' line

/-- `d[k] = v` on a Python `dict` modelled as an association list: replace
the value of an existing key in place, otherwise append. -/
def dictSet {K V : Type} [DecidableEq K] : List (K × V) → K → V → List (K × V)
  | [], k, v => [(k, v)]
  | (k₀, v₀) :: rest, k, v =>
    if k₀ = k then (k₀, v) :: rest else (k₀, v₀) :: dictSet rest k v

/-- `d[k]` lookup (first matching key; keys built via `dictSet` are unique). -/
def lookupD {K V : Type} [DecidableEq K] : List (K × V) → K → Option V
  | [], _ => none
  | (k₀, v₀) :: rest, k => if k₀ = k then some v₀ else lookupD rest k

/-- The loop body of `parseHashesFile`: `res[line[2]] = line[0]` for each
row, where Python raises `IndexError` as soon as a row has fewer than three
fields (`line[0]` is evaluated first, `line[2]` next; either index fails on a
short row). -/
def parseRows : List (List (List Char)) → List (List Char × List Char) → Except PyError (List (List Char × List Char))
  | [], acc => .ok acc
  | row :: rest, acc =>
    if row.length < 3 then .error .indexError
    else parseRows rest (dictSet acc (row.getD 2 []) (row.getD 0 []))

/-- `parseHashesFile` on the character list of the manifest text: feed every
line's fields through the row loop, starting from the empty dict. -/
def parseHashesChars (l : List Char) : Except PyError (List (List Char × List Char)) :=
  parseRows ((splitLines l).map rowFields) []

/-- `parseHashesFile(hashes)` from `BuildDeb.py`. -/
def parseHashesFile (hashes : String) : Except PyError (List (List Char × List Char)) :=
  parseHashesChars hashes.data

/-- Join lines with `\n` separators (no trailing newline); spec-side helper
describing an arbitrary newline-free line list. -/
def joinNL : List (List Char) → List Char
  | [] => []
  | [l] => l
  | l :: rest => l ++ '\n' :: joinNL rest

/-- Spec-side generator for the manifest format: one `<hash> <label>
<filename>` record per line, each line newline-terminated, from a known
filename-to-hash mapping. -/
def genManifest (entries : List (List Char × List Char)) (alg : List Char) : List Char :=
  entries.foldr (fun p rest => p.2 ++ ' ' :: (alg ++ ' ' :: (p.1 ++ '\n' :: rest))) []

/-- The single manifest line `<hash> <label> <filename>` of one mapping
entry `(filename, hash)`. -/
def lineOf (alg : List Char) (p : List Char × List Char) : List Char :=
  p.2 ++ ' ' :: (alg ++ ' ' :: p.1)

/-- `True` iff the computation did not raise. -/
def isOkE {ε α : Type} : Except ε α → Bool
  | .ok _ => true
  | .error _ => false

/-! ## Signature verification (`findKeyByFingerprint` / `verifyBlob`, lines 218-240)

The GPG backend is an oracle: the local keyring is a list of keys (each with
its primary fingerprint and the fingerprints of all its subkeys, as `gpg`
reports them), and `gpgContext.verify` — which raises on any invalid
signature — is represented by the list of fingerprints of the signatures it
reports on the signed data. -/

/-- A key of the local GPG keyring: `k.fpr` and the `sk.fpr` of its subkeys. -/
structure GpgKey where
  fpr : String
  subkeys : List String
deriving DecidableEq, Repr

/-- Python `str.upper()` on the ASCII alphabet of fingerprints/digests. -/
def pyUpper (s : String) : String := ⟨s.data.map Char.toUpper⟩

/-- Python `str.lower()` on the ASCII alphabet of fingerprints/digests. -/
def charLower (l : List Char) : List Char := l.map Char.toLower

/-- Truthiness of an optional string parameter (`if keyFingerprint:`):
`None` and the empty string are falsy. -/
def strTruthy : Option String → Bool
  | none => false
  | some s => if s = "" then false else true

/-- `findKeyByFingerprint(fp)`: first key of the keyring whose primary
fingerprint equals `fp`, else `None`. -/
def findKeyByFingerprint (keys : List GpgKey) (fp : String) : Option GpgKey :=
  keys.find? (fun k => k.fpr == fp)

/-- The `allowedFingerprints` set built by `verifyBlob`: with a truthy
`keyFingerprint`, look the key up by its uppercased fingerprint and take all
its subkey fingerprints (`key.subkeys` on `None` raises `AttributeError`);
otherwise with a truthy `subkeyFingerprint`, the uppercased fingerprint
itself; otherwise empty. -/
def allowedFingerprints (keys : List GpgKey) (keyFingerprint subkeyFingerprint : Option String) :
    Except PyError (List String) :=
  if strTruthy keyFingerprint then
    match findKeyByFingerprint keys (pyUpper (keyFingerprint.getD "")) with
    | some k => .ok k.subkeys
    | none => .error .attributeError
  else if strTruthy subkeyFingerprint then
    .ok [pyUpper (subkeyFingerprint.getD "")]
  else
    .ok []

/-- `verifyBlob` from `BuildDeb.py` (lines 225-240): build the allowed set,
return `True` at the first reported signer fingerprint found in it, else
raise `Exception("Wrong public keys used: …")` listing every reported signer
fingerprint. -/
def verifyBlob (keys : List GpgKey) (signatures : List String)
    (keyFingerprint subkeyFingerprint : Option String) : Except PyError Bool :=
  match allowedFingerprints keys keyFingerprint subkeyFingerprint with
  | .error e => .error e
  | .ok allowed =>
    if signatures.any (fun s => allowed.contains s) then .ok true
    else .error (.wrongPublicKeys signatures)

/-! ## Fetch pipeline slice of `doBuild` (lines 275-294)

After the hashes file and its signature are downloaded, `doBuild` verifies
the signature, parses the manifest, looks up the archive filename, downloads
the archive, and compares its digest case-insensitively; on success the
archive path flows on to `unpack`. -/

/-- The verification steps of `doBuild`: `verifyBlob` on the manifest, then
`parseHashesFile`, then `hashes[archiveFileName].lower()` (a missing entry
raises `KeyError`), then `actualFileHash.lower() != archiveEtalonHash` raises
`Exception("Bad hash for the downloaded archive!")`; otherwise the local
archive path is the result used by the rest of the build. -/
def doBuildFetch (keys : List GpgKey) (signatures : List String) (keyFingerprint : Option String)
    (manifestText : String) (archiveFileName : String) (actualFileHash : String)
    (archPath : String) : Except PyError String :=
  match verifyBlob keys signatures keyFingerprint none with
  | .error e => .error e
  | .ok _ =>
    match parseHashesFile manifestText with
    | .error e => .error e
    | .ok hashes =>
      match lookupD hashes archiveFileName.data with
      | none => .error (.keyError archiveFileName.data)
      | some h =>
        if charLower actualFileHash.data ≠ charLower h then .error .badHash
        else .ok archPath

/-! ## Release catalogue (`getLatestVersionAndURLWithGitHubAPI.py`)

The GitHub API response is an oracle: a list of raw release records with the
fields `getTargets` reads.  Datetimes (`parseDT` results, totally ordered)
are modelled as naturals.  Regular-expression patterns are modelled as the
decision functions they induce: an asset/title pattern is a `String → Bool`,
and the tag pattern — whose first capture group is extracted — is a
`String → Option String` (`none` for no match).  The rate-limit telemetry
printing and the error-payload (`"message"`) check are I/O glue preceding
the loop and are not modelled. -/

/-- One element of a release's `assets` array. -/
structure RawAsset where
  name : String
  created : Nat
  updated : Nat
  uri : String
deriving DecidableEq, Repr

/-- One raw release record of the API response. -/
structure RawRelease where
  name : String
  tag : String
  prerelease : Bool
  created : Nat
  published : Nat
  assets : List RawAsset
deriving DecidableEq, Repr

/-- `DownloadTargetFile` (role, created, modified, uri). -/
structure DownloadTargetFile where
  role : Option String
  created : Nat
  modified : Nat
  uri : String
deriving DecidableEq, Repr

/-- `DownloadTarget`: name, captured version, prerelease flag, created and
published datetimes, and the role-indexed files dict. -/
structure DownloadTarget where
  name : String
  version : String
  prerelease : Bool
  created : Nat
  published : Nat
  files : List (Option String × DownloadTargetFile)
deriving DecidableEq, Repr

/-- `DownloadTargetFile.cmpTuple`: `(created, modified)`. -/
def DownloadTargetFile.cmpTuple (f : DownloadTargetFile) : Nat × Nat := (f.created, f.modified)

/-- `DownloadTarget.cmpTuple`: `(created, published)`. -/
def DownloadTarget.cmpTuple (t : DownloadTarget) : Nat × Nat := (t.created, t.published)

/-- Python tuple `>` on a pair: first components compared first, second
components only on a tie. -/
def tupGT (p q : Nat × Nat) : Bool :=
  decide (q.1 < p.1) || (decide (p.1 = q.1) && decide (q.2 < p.2))

/-- `ComparableDownloadTarget.__gt__`: compare the `cmpTuple`s. -/
def dtGT (a b : DownloadTarget) : Bool := tupGT a.cmpTuple b.cmpTuple

/-- Python `max(iterable)`: start from the first element and replace the
running maximum whenever `item > maximum` (`doBuild` line 269,
`selectedTarget = max(tgts)`). -/
def pyMax : DownloadTarget → List DownloadTarget → DownloadTarget
  | acc, [] => acc
  | acc, x :: xs => pyMax (if dtGT x acc then x else acc) xs

/-- The title filter: `if titleRx is not None and not titleRx.match(nm)`. -/
def titlePass (titleRx : Option (String → Bool)) (nm : String) : Bool :=
  match titleRx with
  | some rx => rx nm
  | none => true

/-- Construct the `DownloadTargetFile` of a matched asset. -/
def mkFile (role : Option String) (a : RawAsset) : DownloadTargetFile :=
  ⟨role, a.created, a.updated, a.uri⟩

/-- The inner loop over `downloadFileNamesRxs.items()`: every role whose
pattern matches the asset's name gets the asset assigned
(`files[role] = DownloadTargetFile(...)`, overwriting earlier matches). -/
def addAsset (roleRxs : List (Option String × (String → Bool)))
    (files : List (Option String × DownloadTargetFile)) (a : RawAsset) :
    List (Option String × DownloadTargetFile) :=
  roleRxs.foldl (fun fs p => if p.2 a.name then dictSet fs p.1 (mkFile p.1 a) else fs) files

/-- The `files` dict built over all assets of a release. -/
def buildFiles (roleRxs : List (Option String × (String → Bool))) (assets : List RawAsset) :
    List (Option String × DownloadTargetFile) :=
  assets.foldl (addAsset roleRxs) []

/-- The per-release body of the `getTargets` loop: skip on failed title
filter, skip on failed tag match (else capture the version), build the files
dict, and yield the target only if `len(files) == len(downloadFileNamesRxs)`. -/
def processRelease (titleRx : Option (String → Bool)) (tagRx : String → Option String)
    (roleRxs : List (Option String × (String → Bool))) (r : RawRelease) :
    Option DownloadTarget :=
  if titlePass titleRx r.name then
    match tagRx r.tag with
    | none => none
    | some v =>
      let files := buildFiles roleRxs r.assets
      if files.length = roleRxs.length then
        some ⟨r.name, v, r.prerelease, r.created, r.published, files⟩
      else none
  else none

/-- `getTargets` as the list of yielded targets over the release records. -/
def getTargets (titleRx : Option (String → Bool)) (tagRx : String → Option String)
    (roleRxs : List (Option String × (String → Bool))) (releases : List RawRelease) :
    List DownloadTarget :=
  releases.filterMap (processRelease titleRx tagRx roleRxs)

/-- Number of assets of a release matched by one role's pattern. -/
def matchCount (assets : List RawAsset) (rx : String → Bool) : Nat :=
  (assets.filter (fun a => rx a.name)).length

/-! ### Path lemmas -/

lemma resolveComps_no_dotdot_aux (l : List String) (acc : List String) (h : ¬ ".." ∈ acc) :
    ¬ ".." ∈ l.foldl (fun acc c => if c = "." then acc else if c = ".." then acc.dropLast else acc ++ [c]) acc := by
  induction l generalizing acc with
  | nil => simpa using h
  | cons x xs ih =>
    simp only [List.foldl_cons]
    by_cases hx : x = "."
    · simp only [hx, if_pos rfl]; exact ih acc h
    · by_cases hx2 : x = ".."
      · simp only [if_neg hx, hx2, if_pos rfl]
        exact ih acc.dropLast (fun hc => h (List.mem_of_mem_dropLast hc))
      · simp only [if_neg hx, if_neg hx2]
        refine ih (acc ++ [x]) ?_
        intro hc
        rcases List.mem_append.mp hc with hc | hc
        · exact h hc
        · simp at hc; exact hx2 hc.symm

lemma resolveComps_no_dotdot (l : List String) : ¬ ".." ∈ resolveComps l :=
  resolveComps_no_dotdot_aux l [] (by simp)

lemma isSubdir_not_false (parent child : List String) :
    isSubdir parent child = .ok true ∨
      isSubdir parent child = .error ⟨resolveComps child, resolveComps parent⟩ := by
  unfold isSubdir relativeTo
  by_cases h : (resolveComps parent).isPrefixOf (resolveComps child)
  · left
    simp only [h, if_pos, reduceIte]
    have hnd : ¬ ".." ∈ (resolveComps child).drop (resolveComps parent).length := by
      intro hm
      exact resolveComps_no_dotdot child (List.mem_of_mem_drop hm)
    have : ((resolveComps child).drop (resolveComps parent).length).contains ".." = false := by
      rw [List.contains_eq_any_beq]
      simp only [List.any_eq_false]
      intro x hx
      simp only [beq_iff_eq]
      intro hxe
      exact hnd (hxe ▸ hx)
    simp [this]
    exact hnd
  · right
    simp [h]

lemma resolveComps_no_dot_aux (l : List String) (acc : List String) (h : ¬ "." ∈ acc) :
    ¬ "." ∈ l.foldl (fun acc c => if c = "." then acc else if c = ".." then acc.dropLast else acc ++ [c]) acc := by
  induction l generalizing acc with
  | nil => simpa using h
  | cons x xs ih =>
    simp only [List.foldl_cons]
    by_cases hx : x = "."
    · simp only [hx, if_pos rfl]; exact ih acc h
    · by_cases hx2 : x = ".."
      · simp only [if_neg hx, hx2, if_pos rfl]
        exact ih acc.dropLast (fun hc => h (List.mem_of_mem_dropLast hc))
      · simp only [if_neg hx, if_neg hx2]
        refine ih (acc ++ [x]) ?_
        intro hc
        rcases List.mem_append.mp hc with hc | hc
        · exact h hc
        · simp at hc; exact hx (hc.symm)

lemma resolveComps_no_dot (l : List String) : ¬ "." ∈ resolveComps l :=
  resolveComps_no_dot_aux l [] (by simp)

lemma resolveComps_foldl_plain (l : List String) (acc : List String)
    (h1 : ¬ "." ∈ l) (h2 : ¬ ".." ∈ l) :
    l.foldl (fun acc c => if c = "." then acc else if c = ".." then acc.dropLast else acc ++ [c]) acc = acc ++ l := by
  induction l generalizing acc with
  | nil => simp
  | cons x xs ih =>
    have hx : x ≠ "." := fun he => h1 (he ▸ List.mem_cons_self x xs)
    have hx2 : x ≠ ".." := fun he => h2 (he ▸ List.mem_cons_self x xs)
    simp only [List.foldl_cons, if_neg hx, if_neg hx2]
    rw [ih (acc ++ [x]) (fun hc => h1 (List.mem_cons_of_mem x hc)) (fun hc => h2 (List.mem_cons_of_mem x hc))]
    simp

lemma resolveComps_eq_self (l : List String) (h1 : ¬ "." ∈ l) (h2 : ¬ ".." ∈ l) :
    resolveComps l = l := by
  unfold resolveComps
  rw [resolveComps_foldl_plain l [] h1 h2]
  simp

lemma resolveComps_idem (l : List String) : resolveComps (resolveComps l) = resolveComps l :=
  resolveComps_eq_self _ (resolveComps_no_dot l) (resolveComps_no_dotdot l)

lemma isSubdir_ok_true_prefix (parent child : List String)
    (h : isSubdir parent child = .ok true) :
    (resolveComps parent).isPrefixOf (resolveComps child) = true := by
  unfold isSubdir relativeTo at h
  by_cases hp : (resolveComps parent).isPrefixOf (resolveComps child)
  · exact hp
  · simp [hp] at h

lemma isSubdir_not_prefix_error (parent child : List String)
    (hp : resolveComps parent = parent)
    (h : parent.isPrefixOf (resolveComps child) = false) :
    isSubdir parent child = .error ⟨resolveComps child, parent⟩ := by
  unfold isSubdir relativeTo
  simp [hp, h]

lemma runEntries_traversal (d : List String) (pre post : List ArchiveEntry) (bad : ArchiveEntry)
    (hd : resolveComps d = d)
    (hpre : ∀ e ∈ pre, isSubdir d (d ++ e.name) = .ok true)
    (hbad : d.isPrefixOf (resolveComps (d ++ bad.name)) = false) :
    runEntries d (pre ++ bad :: post) =
      (pre.map (fun e => resolveComps (d ++ e.name)), pre.map (fun e => (e.name, e.size)),
        some ⟨resolveComps (d ++ bad.name), d⟩) := by
  induction pre with
  | nil =>
    simp only [List.nil_append, runEntries]
    rw [isSubdir_not_prefix_error d (d ++ bad.name) hd hbad]
    simp
  | cons e pre ih =>
    simp only [List.cons_append, runEntries, List.append_eq]
    rw [hpre e (List.mem_cons_self e pre),
      ih (fun e' he' => hpre e' (List.mem_cons_of_mem e he'))]
    simp

/-! ### Theorems settling the extraction claims -/

/-- Claim C10: `isSubdir` never returns `False`: for every parent and child it
either returns `True` (the resolved relative path cannot contain a `..`
component, because `resolve` has already eliminated them) or propagates the
`ValueError` of `relative_to`, whose payload names the resolved child and
parent paths.  Consequently the silent-skip `else` branch of the guard in
`unpack` is unreachable: whenever the loop finishes without an exception,
every entry of the archive was extracted. -/
theorem isSubdir_never_false :
    (∀ parent child : List String,
        isSubdir parent child = .ok true ∨
          isSubdir parent child = .error ⟨resolveComps child, resolveComps parent⟩) ∧
      (∀ (fileBytes : List Nat) (extrDir : List String) (entries : List ArchiveEntry),
        (unpack fileBytes extrDir entries).error = none →
          (unpack fileBytes extrDir entries).written.length = entries.length) := by
  constructor
  · exact isSubdir_not_false
  · intro fileBytes extrDir entries
    unfold unpack
    simp only
    induction entries with
    | nil => intro; rfl
    | cons e rest ih =>
      simp only [runEntries]
      rcases isSubdir_not_false (resolveComps extrDir) (resolveComps extrDir ++ e.name) with h | h
      · rw [h]
        simp only [List.length_cons]
        intro he
        exact congrArg Nat.succ (ih he)
      · rw [h]
        intro he
        simp at he

/-- Claim C10 witness: at a concrete safe pair `isSubdir` answers `True`, and
on a concrete archive that extracts without error every entry is written. -/
theorem isSubdir_never_false_witness :
    isSubdir ["tmp", "x"] ["tmp", "x", "a"] = .ok true ∧
      (unpack [1, 0, 0, 0] ["tmp", "x"] [⟨["a"], 1⟩]).written.length = 1 := by
  constructor
  · have h := isSubdir_never_false.1 ["tmp", "x"] ["tmp", "x", "a"]
    rcases h with h | h
    · exact h
    · rw [show isSubdir ["tmp", "x"] ["tmp", "x", "a"] = .ok true from rfl] at h
      exact Except.noConfusion h
  · exact isSubdir_never_false.2 [1, 0, 0, 0] ["tmp", "x"] [⟨["a"], 1⟩] rfl

/-- Claim C9: the trailer-declared uncompressed size (little-endian `uint32`
in the final 4 bytes) only becomes the progress-bar total: the extracted
entries, the bytes written and the presence or absence of an abort are
identical for any two archive byte strings, so a mismatch between the
declared size and the bytes actually written raises no error and changes no
behaviour. -/
theorem unpack_size_advisory :
    ∀ (bytes₁ bytes₂ : List Nat) (extrDir : List String) (entries : List ArchiveEntry),
      (unpack bytes₁ extrDir entries).written = (unpack bytes₂ extrDir entries).written ∧
        (unpack bytes₁ extrDir entries).updates = (unpack bytes₂ extrDir entries).updates ∧
        (unpack bytes₁ extrDir entries).error = (unpack bytes₂ extrDir entries).error ∧
        (unpack bytes₁ extrDir entries).progressTotal = trailerSize bytes₁ := by
  intro bytes₁ bytes₂ extrDir entries
  unfold unpack
  exact ⟨rfl, rfl, rfl, rfl⟩

/-- Claim C1 counterexample: the exception aborting the extraction of the
entry `../../etc/passwd` is the `ValueError` of `relative_to`, whose payload
is the *resolved* destination path `/etc/passwd` together with the target
root — it does not carry the raw entry name, so the claimed
`PathTraversalError(entryName)` payload is not what the code raises. -/
theorem unpack_traversal_error_payload :
    (unpack [0, 0, 0, 0] ["tmp", "xtest"] [⟨["..", "..", "etc", "passwd"], 9⟩]).error =
        some ⟨["etc", "passwd"], ["tmp", "xtest"]⟩ ∧
      (["etc", "passwd"] : List String) ≠ ["..", "..", "etc", "passwd"] :=
  ⟨rfl, by decide⟩

/-- Claim C1 (amended): for every archive whose entry list contains an entry
whose resolved destination escapes the resolved target root (and whose
earlier entries are all safe), `unpack` aborts at that entry with the
`ValueError` of `relative_to` — carrying the entry's resolved destination
path and the resolved root rather than the raw entry name — extracts exactly
the entries before it (nothing is silently skipped, no later entry is
extracted), and every path written lies under the resolved target root. -/
theorem unpack_aborts_on_traversal (fileBytes : List Nat) (extrDir : List String)
    (pre post : List ArchiveEntry) (bad : ArchiveEntry)
    (hpre : ∀ e ∈ pre, isSubdir (resolveComps extrDir) (resolveComps extrDir ++ e.name) = .ok true)
    (hbad : (resolveComps extrDir).isPrefixOf (resolveComps (resolveComps extrDir ++ bad.name)) = false) :
    (unpack fileBytes extrDir (pre ++ bad :: post)).error =
        some ⟨resolveComps (resolveComps extrDir ++ bad.name), resolveComps extrDir⟩ ∧
      (unpack fileBytes extrDir (pre ++ bad :: post)).written =
        pre.map (fun e => resolveComps (resolveComps extrDir ++ e.name)) ∧
      (unpack fileBytes extrDir (pre ++ bad :: post)).updates =
        pre.map (fun e => (e.name, e.size)) ∧
      ∀ w ∈ (unpack fileBytes extrDir (pre ++ bad :: post)).written,
        (resolveComps extrDir).isPrefixOf w = true := by
  have hrun := runEntries_traversal (resolveComps extrDir) pre post bad
    (resolveComps_idem extrDir) hpre hbad
  unfold unpack
  simp only [hrun, true_and]
  intro w hw
  simp only [List.mem_map] at hw
  obtain ⟨e, he, rfl⟩ := hw
  have := isSubdir_ok_true_prefix (resolveComps extrDir) (resolveComps extrDir ++ e.name) (hpre e he)
  rwa [resolveComps_idem extrDir] at this

/-- Claim C1 witness: a concrete archive with a safe entry, then
`../../etc/passwd`, then another entry: extraction aborts at the traversal
entry, only the safe entry before it was written (inside the root), and the
error names the resolved escape path and the root. -/
theorem unpack_aborts_on_traversal_witness :
    (unpack [0, 0, 0, 0] ["tmp", "xtest"]
          ([⟨["a.txt"], 3⟩] ++ (⟨["..", "..", "etc", "passwd"], 9⟩ : ArchiveEntry) :: [⟨["b"], 1⟩])).error =
        some ⟨["etc", "passwd"], ["tmp", "xtest"]⟩ ∧
      (unpack [0, 0, 0, 0] ["tmp", "xtest"]
          ([⟨["a.txt"], 3⟩] ++ (⟨["..", "..", "etc", "passwd"], 9⟩ : ArchiveEntry) :: [⟨["b"], 1⟩])).written =
        [["tmp", "xtest", "a.txt"]] := by
  have h := unpack_aborts_on_traversal [0, 0, 0, 0] ["tmp", "xtest"]
    [⟨["a.txt"], 3⟩] [⟨["b"], 1⟩] ⟨["..", "..", "etc", "passwd"], 9⟩
    (by decide) (by decide)
  exact ⟨h.1, h.2.1⟩

/-! ### Manifest lemmas -/

lemma splitOnChar_append (c : Char) (a b : List Char) (ha : ¬ c ∈ a) :
    splitOnChar c (a ++ c :: b) = a :: splitOnChar c b := by
  induction a with
  | nil => simp [splitOnChar]
  | cons x xs ih =>
    have hx : x ≠ c := fun he => ha (he ▸ List.mem_cons_self x xs)
    have ih2 := ih (fun hc => ha (List.mem_cons_of_mem x hc))
    simp only [List.cons_append, splitOnChar, if_neg hx, List.append_eq, ih2]

lemma splitOnChar_of_not_mem (c : Char) (a : List Char) (ha : ¬ c ∈ a) :
    splitOnChar c a = [a] := by
  induction a with
  | nil => rfl
  | cons x xs ih =>
    have hx : x ≠ c := fun he => ha (he ▸ List.mem_cons_self x xs)
    have ih2 := ih (fun hc => ha (List.mem_cons_of_mem x hc))
    simp only [splitOnChar, ih2, if_neg hx]

lemma normNewlines_eq_self (l : List Char) (h : ¬ '\r' ∈ l) : normNewlines l = l := by
  induction l with
  | nil => rfl
  | cons x xs ih =>
    have hx : x ≠ '\r' := fun he => h (he ▸ List.mem_cons_self x xs)
    rw [normNewlines.eq_def]
    simp only [if_neg hx]
    rw [ih (fun hc => h (List.mem_cons_of_mem x hc))]

lemma dropLastEmpty_concat_nil (l : List (List Char)) : dropLastEmpty (l ++ [[]]) = l := by
  unfold dropLastEmpty
  rw [List.getLast?_concat, List.dropLast_concat]
  simp

lemma dropLastEmpty_of_getLast (l : List (List Char)) (h : l.getLast? ≠ some []) :
    dropLastEmpty l = l := by
  unfold dropLastEmpty
  rw [if_neg h]

lemma joinNL_not_mem (x : Char) (lines : List (List Char)) (hx : x ≠ '\n')
    (h : ∀ line ∈ lines, ¬ x ∈ line) : ¬ x ∈ joinNL lines := by
  induction lines with
  | nil => simp [joinNL]
  | cons l rest ih =>
    cases rest with
    | nil => exact h l (List.mem_cons_self l [])
    | cons l₂ r2 =>
      simp only [joinNL]
      intro hm
      rcases List.mem_append.mp hm with hm | hm
      · exact h l (List.mem_cons_self l _) hm
      · rcases List.mem_cons.mp hm with hm | hm
        · exact hx hm
        · exact ih (fun line hl => h line (List.mem_cons_of_mem _ hl)) hm

lemma splitOnChar_joinNL (lines : List (List Char)) (hne : lines ≠ [])
    (h : ∀ line ∈ lines, ¬ '\n' ∈ line) :
    splitOnChar '\n' (joinNL lines) = lines := by
  induction lines with
  | nil => exact absurd rfl hne
  | cons l rest ih =>
    cases rest with
    | nil => exact splitOnChar_of_not_mem _ _ (h l (List.mem_cons_self l []))
    | cons l₂ r2 =>
      show splitOnChar '\n' (l ++ '\n' :: joinNL (l₂ :: r2)) = _
      rw [splitOnChar_append _ _ _ (h l (List.mem_cons_self l _))]
      rw [ih (by simp) (fun line hl => h line (List.mem_cons_of_mem _ hl))]

lemma splitOnChar_joinNL_newline (lines : List (List Char)) (hne : lines ≠ [])
    (h : ∀ line ∈ lines, ¬ '\n' ∈ line) :
    splitOnChar '\n' (joinNL lines ++ ['\n']) = lines ++ [[]] := by
  induction lines with
  | nil => exact absurd rfl hne
  | cons l rest ih =>
    cases rest with
    | nil =>
      show splitOnChar '\n' (l ++ ['\n']) = [l, []]
      have : l ++ ['\n'] = l ++ '\n' :: [] := rfl
      rw [this, splitOnChar_append _ _ _ (h l (List.mem_cons_self l []))]
      rfl
    | cons l₂ r2 =>
      show splitOnChar '\n' ((l ++ '\n' :: joinNL (l₂ :: r2)) ++ ['\n']) = _
      rw [List.append_assoc]
      show splitOnChar '\n' (l ++ '\n' :: (joinNL (l₂ :: r2) ++ ['\n'])) = _
      rw [splitOnChar_append _ _ _ (h l (List.mem_cons_self l _))]
      rw [ih (by simp) (fun line hl => h line (List.mem_cons_of_mem _ hl))]
      rfl

lemma mem_lineOf (x : Char) (alg : List Char) (p : List Char × List Char)
    (hm : x ∈ lineOf alg p) : x ∈ p.2 ∨ x = ' ' ∨ x ∈ alg ∨ x ∈ p.1 := by
  unfold lineOf at hm
  rcases List.mem_append.mp hm with hm | hm
  · exact Or.inl hm
  rcases List.mem_cons.mp hm with hm | hm
  · exact Or.inr (Or.inl hm)
  rcases List.mem_append.mp hm with hm | hm
  · exact Or.inr (Or.inr (Or.inl hm))
  rcases List.mem_cons.mp hm with hm | hm
  · exact Or.inr (Or.inl hm)
  · exact Or.inr (Or.inr (Or.inr hm))

lemma lineOf_no_newline (alg : List Char) (p : List Char × List Char)
    (h1 : ¬ '\n' ∈ p.1) (h2 : ¬ '\n' ∈ p.2) (halg : ¬ '\n' ∈ alg) :
    ¬ '\n' ∈ lineOf alg p := by
  intro hm
  rcases mem_lineOf _ _ _ hm with hm | hm | hm | hm
  · exact h2 hm
  · exact absurd hm (by decide)
  · exact halg hm
  · exact h1 hm

lemma splitOnChar_genManifest (entries : List (List Char × List Char)) (alg : List Char)
    (h : ∀ p ∈ entries, ¬ '\n' ∈ p.1 ∧ ¬ '\n' ∈ p.2) (halg : ¬ '\n' ∈ alg) :
    splitOnChar '\n' (genManifest entries alg) = entries.map (lineOf alg) ++ [[]] := by
  induction entries with
  | nil => rfl
  | cons p es ih =>
    have hstep : genManifest (p :: es) alg = lineOf alg p ++ '\n' :: genManifest es alg := by
      simp [genManifest, lineOf]
    rw [hstep]
    have hp := h p (List.mem_cons_self p es)
    rw [splitOnChar_append _ _ _ (lineOf_no_newline alg p hp.1 hp.2 halg)]
    rw [ih (fun q hq => h q (List.mem_cons_of_mem _ hq))]
    rfl

lemma genManifest_no_cr (entries : List (List Char × List Char)) (alg : List Char)
    (h : ∀ p ∈ entries, ¬ '\r' ∈ p.1 ∧ ¬ '\r' ∈ p.2) (halg : ¬ '\r' ∈ alg) :
    ¬ '\r' ∈ genManifest entries alg := by
  induction entries with
  | nil => simp [genManifest]
  | cons p es ih =>
    have hstep : genManifest (p :: es) alg = lineOf alg p ++ '\n' :: genManifest es alg := by
      simp [genManifest, lineOf]
    rw [hstep]
    intro hm
    have hp := h p (List.mem_cons_self p es)
    rcases List.mem_append.mp hm with hm | hm
    · rcases mem_lineOf _ _ _ hm with hm | hm | hm | hm
      · exact hp.2 hm
      · exact absurd hm (by decide)
      · exact halg hm
      · exact hp.1 hm
    · rcases List.mem_cons.mp hm with hm | hm
      · exact absurd hm (by decide)
      · exact ih (fun q hq => h q (List.mem_cons_of_mem _ hq)) hm

lemma lineOf_ne_nil (alg : List Char) (p : List Char × List Char) : lineOf alg p ≠ [] := by
  unfold lineOf
  cases h : p.2 with
  | nil => simp
  | cons a b => simp

lemma rowFields_lineOf (alg : List Char) (p : List Char × List Char)
    (h1 : ¬ ' ' ∈ p.1) (h2 : ¬ ' ' ∈ p.2) (halg : ¬ ' ' ∈ alg) :
    rowFields (lineOf alg p) = [p.2, alg, p.1] := by
  unfold rowFields
  rw [if_neg (lineOf_ne_nil alg p)]
  unfold lineOf
  rw [splitOnChar_append _ _ _ h2, splitOnChar_append _ _ _ halg,
    splitOnChar_of_not_mem _ _ h1]

lemma parseRows_gen (alg : List Char) (entries : List (List Char × List Char))
    (acc : List (List Char × List Char)) :
    parseRows (entries.map (fun p => [p.2, alg, p.1])) acc =
      .ok (entries.foldl (fun m p => dictSet m p.1 p.2) acc) := by
  induction entries generalizing acc with
  | nil => rfl
  | cons p es ih =>
    simp only [List.map_cons, parseRows, List.foldl_cons, List.length_cons]
    rw [if_neg (by simp)]
    exact ih _

lemma lookupD_dictSet {K V : Type} [DecidableEq K] (m : List (K × V)) (k q : K) (v : V) :
    lookupD (dictSet m k v) q = if q = k then some v else lookupD m q := by
  induction m with
  | nil =>
    show (if k = q then some v else none) = if q = k then some v else none
    by_cases h : q = k
    · rw [if_pos h, if_pos h.symm]
    · rw [if_neg h, if_neg (fun he => h he.symm)]
  | cons p rest ih =>
    obtain ⟨k₀, v₀⟩ := p
    show lookupD (if k₀ = k then (k₀, v) :: rest else (k₀, v₀) :: dictSet rest k v) q = _
    by_cases h0 : k₀ = k
    · rw [if_pos h0]
      show (if k₀ = q then some v else lookupD rest q) =
        if q = k then some v else if k₀ = q then some v₀ else lookupD rest q
      by_cases hq : k₀ = q
      · have hqk : q = k := by rw [← hq, h0]
        rw [if_pos hq, if_pos hqk]
      · have hqk : ¬ q = k := fun he => hq (by rw [h0, ← he])
        rw [if_neg hq, if_neg hqk, if_neg hq]
    · rw [if_neg h0]
      show (if k₀ = q then some v₀ else lookupD (dictSet rest k v) q) =
        if q = k then some v else if k₀ = q then some v₀ else lookupD rest q
      rw [ih]
      by_cases hq : k₀ = q
      · have hqk : ¬ q = k := fun he => h0 (by rw [hq, he])
        rw [if_pos hq, if_neg hqk, if_pos hq]
      · by_cases hqk : q = k
        · rw [if_neg hq, if_pos hqk, if_pos hqk]
        · rw [if_neg hq, if_neg hqk, if_neg hqk, if_neg hq]

lemma lookupD_eq_none {K V : Type} [DecidableEq K] (m : List (K × V)) (q : K)
    (h : ¬ q ∈ m.map Prod.fst) : lookupD m q = none := by
  induction m with
  | nil => rfl
  | cons p rest ih =>
    have h1 : ¬ p.1 = q := fun he => h (by simp [he])
    simp only [lookupD, if_neg h1]
    exact ih (fun hm => h (by simp; right; simpa using hm))

lemma lookupD_append {K V : Type} [DecidableEq K] (m₁ m₂ : List (K × V)) (q : K) :
    lookupD (m₁ ++ m₂) q =
      match lookupD m₁ q with
      | some v => some v
      | none => lookupD m₂ q := by
  induction m₁ with
  | nil => rfl
  | cons p rest ih =>
    by_cases h : p.1 = q
    · simp [lookupD, h]
    · simp only [List.cons_append, lookupD, if_neg h]
      exact ih

lemma foldl_dictSet_lookup {K V : Type} [DecidableEq K] (entries : List (K × V))
    (acc : List (K × V)) (q : K) :
    lookupD (entries.foldl (fun m p => dictSet m p.1 p.2) acc) q =
      match lookupD entries.reverse q with
      | some v => some v
      | none => lookupD acc q := by
  induction entries generalizing acc with
  | nil => rfl
  | cons p es ih =>
    obtain ⟨k₀, v₀⟩ := p
    simp only [List.foldl_cons, List.reverse_cons]
    rw [ih, lookupD_append]
    cases hle : lookupD es.reverse q with
    | some v => rfl
    | none =>
      show lookupD (dictSet acc k₀ v₀) q =
        match (if k₀ = q then some v₀ else none : Option V) with
        | some v => some v
        | none => lookupD acc q
      rw [lookupD_dictSet]
      by_cases hq : q = k₀
      · rw [if_pos hq, if_pos hq.symm]
      · rw [if_neg hq, if_neg (fun he => hq he.symm)]

lemma lookupD_reverse_nodup {K V : Type} [DecidableEq K] (l : List (K × V))
    (h : (l.map Prod.fst).Nodup) (q : K) : lookupD l.reverse q = lookupD l q := by
  induction l with
  | nil => rfl
  | cons p es ih =>
    obtain ⟨k₀, v₀⟩ := p
    simp only [List.map_cons, List.nodup_cons] at h
    rw [List.reverse_cons, lookupD_append]
    show (match lookupD es.reverse q with
      | some v => some v
      | none => if k₀ = q then some v₀ else none) =
      if k₀ = q then some v₀ else lookupD es q
    rw [ih h.2]
    by_cases hq : k₀ = q
    · have hnone : lookupD es q = none := by
        refine lookupD_eq_none es q ?_
        rw [← hq]
        exact h.1
      rw [hnone]
    · simp only [if_neg hq]
      cases hl : lookupD es q <;> rfl

lemma parseRows_isOk (rows : List (List (List Char))) (acc : List (List Char × List Char)) :
    isOkE (parseRows rows acc) = true ↔ ∀ row ∈ rows, ¬ row.length < 3 := by
  induction rows generalizing acc with
  | nil => simp [parseRows, isOkE]
  | cons row rest ih =>
    by_cases h : row.length < 3
    · simp [parseRows, h, isOkE]
    · simp only [parseRows, if_neg h]
      rw [ih]
      constructor
      · intro hall r hr
        rcases List.mem_cons.mp hr with hr | hr
        · subst hr; exact h
        · exact hall r hr
      · intro hall r hr
        exact hall r (List.mem_cons_of_mem _ hr)

/-! ### Theorems settling the manifest claims -/

/-- Claim C7 counterexample: a line with four fields does not match the fixed
three-field count, yet `parseHashesFile` accepts it without error, taking the
third field as the filename and the first as the hash and silently ignoring
the rest — it does not fail on every line with a field count other than
three. -/
theorem parseHashesFile_accepts_long_row :
    parseHashesFile "a b c d" = .ok [("c".data, "a".data)] := by decide

/-- Claim C7 (amended): `parseHashesFile` fails (with `IndexError`, the
code's realisation of `ManifestParseError`) exactly when some line has fewer
than three fields, so short malformed lines are never silently skipped, but
lines with more than three fields are accepted with the extra fields
ignored; a trailing newline is tolerated: appending a final newline to a
newline-terminated-or-not manifest text does not change the parse. -/
theorem parseHashesFile_field_count (lines : List (List Char))
    (hnl : ∀ line ∈ lines, ¬ '\n' ∈ line ∧ ¬ '\r' ∈ line)
    (hne : lines ≠ [])
    (hlast : lines.getLast? ≠ some []) :
    (isOkE (parseHashesChars (joinNL lines)) = true ↔
        ∀ line ∈ lines, 3 ≤ (rowFields line).length) ∧
      parseHashesChars (joinNL lines ++ ['\n']) = parseHashesChars (joinNL lines) := by
  have hcr : ¬ '\r' ∈ joinNL lines :=
    joinNL_not_mem '\r' lines (by decide) (fun line hl => (hnl line hl).2)
  have hcr2 : ¬ '\r' ∈ joinNL lines ++ ['\n'] := by
    intro hm
    rcases List.mem_append.mp hm with hm | hm
    · exact hcr hm
    · rcases List.mem_cons.mp hm with hm | hm
      · exact absurd hm (by decide)
      · simp at hm
  have hbase : splitLines (joinNL lines) = lines := by
    unfold splitLines
    rw [normNewlines_eq_self _ hcr,
      splitOnChar_joinNL lines hne (fun line hl => (hnl line hl).1),
      dropLastEmpty_of_getLast _ hlast]
  have hnlbase : splitLines (joinNL lines ++ ['\n']) = lines := by
    unfold splitLines
    rw [normNewlines_eq_self _ hcr2,
      splitOnChar_joinNL_newline lines hne (fun line hl => (hnl line hl).1),
      dropLastEmpty_concat_nil]
  constructor
  · unfold parseHashesChars
    rw [hbase, parseRows_isOk]
    constructor
    · intro hall line hl
      have := hall (rowFields line) (List.mem_map_of_mem rowFields hl)
      omega
    · intro hall row hr
      rcases List.mem_map.mp hr with ⟨line, hl, rfl⟩
      have := hall line hl
      omega
  · unfold parseHashesChars
    rw [hbase, hnlbase]

/-- Claim C7 witness: a two-line manifest whose second line has four fields
still parses (extra field ignored), and its parse is unchanged by a trailing
newline. -/
theorem parseHashesFile_field_count_witness :
    ((["a b c".data, "d e f g".data] : List (List Char)) ≠ [] ∧
        (["a b c".data, "d e f g".data] : List (List Char)).getLast? ≠ some []) ∧
      (isOkE (parseHashesChars (joinNL ["a b c".data, "d e f g".data])) = true ↔
          ∀ line ∈ (["a b c".data, "d e f g".data] : List (List Char)),
            3 ≤ (rowFields line).length) ∧
        parseHashesChars (joinNL ["a b c".data, "d e f g".data] ++ ['\n']) =
          parseHashesChars (joinNL ["a b c".data, "d e f g".data]) :=
  ⟨⟨by decide, by decide⟩,
    parseHashesFile_field_count ["a b c".data, "d e f g".data] (by decide) (by decide) (by decide)⟩

/-- Claim C8: parsing a manifest generated from a known filename-to-hash
mapping recovers exactly that mapping — hash character case preserved as
generated — and when a filename repeats across lines the last line's hash
wins (lookup in the parsed dict equals lookup in the reversed entry list;
under distinct filenames it equals lookup in the original mapping). -/
theorem parseHashesFile_roundtrip (entries : List (List Char × List Char)) (alg : List Char)
    (halg : ¬ ' ' ∈ alg ∧ ¬ '\n' ∈ alg ∧ ¬ '\r' ∈ alg)
    (hent : ∀ p ∈ entries,
      (¬ ' ' ∈ p.1 ∧ ¬ '\n' ∈ p.1 ∧ ¬ '\r' ∈ p.1) ∧
        (¬ ' ' ∈ p.2 ∧ ¬ '\n' ∈ p.2 ∧ ¬ '\r' ∈ p.2)) :
    ∃ m, parseHashesChars (genManifest entries alg) = .ok m ∧
      (∀ fn, lookupD m fn = lookupD entries.reverse fn) ∧
      ((entries.map Prod.fst).Nodup → ∀ fn, lookupD m fn = lookupD entries fn) := by
  have hsplit : splitLines (genManifest entries alg) = entries.map (lineOf alg) := by
    unfold splitLines
    rw [normNewlines_eq_self _
        (genManifest_no_cr entries alg (fun p hp => ⟨((hent p hp).1).2.2, ((hent p hp).2).2.2⟩) halg.2.2),
      splitOnChar_genManifest entries alg (fun p hp => ⟨((hent p hp).1).2.1, ((hent p hp).2).2.1⟩) halg.2.1,
      dropLastEmpty_concat_nil]
  have hfields : (entries.map (lineOf alg)).map rowFields =
      entries.map (fun p => [p.2, alg, p.1]) := by
    rw [List.map_map]
    refine List.map_congr_left ?_
    intro p hp
    exact rowFields_lineOf alg p ((hent p hp).1).1 ((hent p hp).2).1 halg.1
  refine ⟨entries.foldl (fun m p => dictSet m p.1 p.2) [], ?_, ?_, ?_⟩
  · unfold parseHashesChars
    rw [hsplit, hfields, parseRows_gen]
  · intro fn
    rw [foldl_dictSet_lookup]
    cases h : lookupD entries.reverse fn <;> rfl
  · intro hnd fn
    rw [foldl_dictSet_lookup, lookupD_reverse_nodup entries hnd fn]
    cases h : lookupD entries fn <;> rfl

/-- Claim C8 witness: the spec's example manifest line for `foo.tar.gz` with
digest `abc123` round-trips, including a repeated-filename pair where the
last hash wins. -/
theorem parseHashesFile_roundtrip_witness :
    ((¬ ' ' ∈ "SHA-256".data ∧ ¬ '\n' ∈ "SHA-256".data ∧ ¬ '\r' ∈ "SHA-256".data) ∧
        (∃ m, parseHashesChars
              (genManifest [("foo.tar.gz".data, "abc123".data)] "SHA-256".data) = .ok m ∧
            (∀ fn, lookupD m fn =
              lookupD ([("foo.tar.gz".data, "abc123".data)] : List (List Char × List Char)).reverse fn) ∧
            ((([("foo.tar.gz".data, "abc123".data)] : List (List Char × List Char)).map Prod.fst).Nodup →
              ∀ fn, lookupD m fn =
                lookupD ([("foo.tar.gz".data, "abc123".data)] : List (List Char × List Char)) fn))) :=
  ⟨by decide,
    parseHashesFile_roundtrip [("foo.tar.gz".data, "abc123".data)] "SHA-256".data
      (by decide) (by decide)⟩

/-! ### Verification lemmas -/

lemma string_eq_empty_iff (s : String) : s = "" ↔ s.data = [] := by
  constructor
  · intro h; rw [h]
  · intro h; cases s; simp_all

lemma pyUpper_empty_sync (s₁ s₂ : String) (h : pyUpper s₁ = pyUpper s₂) :
    s₁ = "" ↔ s₂ = "" := by
  have hd : s₁.data.map Char.toUpper = s₂.data.map Char.toUpper := congrArg String.data h
  rw [string_eq_empty_iff, string_eq_empty_iff]
  constructor
  · intro h1
    have h2 : s₂.data.map Char.toUpper = [] := by rw [← hd, h1]; rfl
    simpa using h2
  · intro h1
    have h2 : s₁.data.map Char.toUpper = [] := by rw [hd, h1]; rfl
    simpa using h2

lemma optTruthy_sync (o₁ o₂ : Option String) (h : o₁.map pyUpper = o₂.map pyUpper) :
    strTruthy o₁ = strTruthy o₂ ∧
      (strTruthy o₁ = true → pyUpper (o₁.getD "") = pyUpper (o₂.getD "")) := by
  cases o₁ with
  | none =>
    cases o₂ with
    | none => exact ⟨rfl, fun hc => by simp [strTruthy] at hc⟩
    | some s => simp at h
  | some s₁ =>
    cases o₂ with
    | none => simp at h
    | some s₂ =>
      have hupper : pyUpper s₁ = pyUpper s₂ := by simpa using h
      have hemp := pyUpper_empty_sync s₁ s₂ hupper
      constructor
      · show (if s₁ = "" then false else true) = (if s₂ = "" then false else true)
        by_cases h1 : s₁ = ""
        · rw [if_pos h1, if_pos (hemp.mp h1)]
        · rw [if_neg h1, if_neg (fun h2 => h1 (hemp.mpr h2))]
      · intro _
        exact hupper

lemma allowedFingerprints_congr (keys : List GpgKey) (kf₁ kf₂ skf₁ skf₂ : Option String)
    (hkf : kf₁.map pyUpper = kf₂.map pyUpper) (hskf : skf₁.map pyUpper = skf₂.map pyUpper) :
    allowedFingerprints keys kf₁ skf₁ = allowedFingerprints keys kf₂ skf₂ := by
  obtain ⟨ht1, hu1⟩ := optTruthy_sync kf₁ kf₂ hkf
  obtain ⟨ht2, hu2⟩ := optTruthy_sync skf₁ skf₂ hskf
  unfold allowedFingerprints
  rw [← ht1, ← ht2]
  by_cases h1 : strTruthy kf₁ = true
  · rw [if_pos h1, if_pos h1, hu1 h1]
  · rw [if_neg h1, if_neg h1]
    by_cases h2 : strTruthy skf₁ = true
    · rw [if_pos h2, if_pos h2, hu2 h2]
    · rw [if_neg h2, if_neg h2]

/-! ### Theorems settling the verification and pipeline claims -/

/-- Claim C3: `verifyBlob` returns `True` iff the fingerprints of the
reported signatures over the signed data intersect the allowed fingerprint
set; with an empty intersection it raises the `Wrong public keys used`
exception listing every observed signer fingerprint — it never silently
continues (there is no `False` return). -/
theorem verifyBlob_iff_intersects (keys : List GpgKey) (signatures : List String)
    (kf skf : Option String) (A : List String)
    (hA : allowedFingerprints keys kf skf = .ok A) :
    (verifyBlob keys signatures kf skf = .ok true ↔ ∃ s ∈ signatures, s ∈ A) ∧
      ((¬ ∃ s ∈ signatures, s ∈ A) →
        verifyBlob keys signatures kf skf = .error (.wrongPublicKeys signatures)) := by
  unfold verifyBlob
  simp only [hA]
  have hany : (signatures.any (fun s => A.contains s) = true) ↔ ∃ s ∈ signatures, s ∈ A := by
    simp
  by_cases h : signatures.any (fun s => A.contains s) = true
  · rw [if_pos h]
    exact ⟨⟨fun _ => hany.mp h, fun _ => rfl⟩, fun hn => absurd (hany.mp h) hn⟩
  · rw [if_neg h]
    refine ⟨⟨fun he => absurd he (by simp), fun hex => absurd (hany.mpr hex) h⟩, fun _ => rfl⟩

/-- Claim C3 witness: with trusted subkey fingerprint `ab` (allowed set
`{AB}`) and one observed signer `AB`, verification succeeds exactly because
the sets intersect. -/
theorem verifyBlob_iff_intersects_witness :
    allowedFingerprints [] none (some "ab") = .ok ["AB"] ∧
      ((verifyBlob [] ["AB"] none (some "ab") = .ok true ↔
          ∃ s ∈ (["AB"] : List String), s ∈ (["AB"] : List String)) ∧
        ((¬ ∃ s ∈ (["AB"] : List String), s ∈ (["AB"] : List String)) →
          verifyBlob [] ["AB"] none (some "ab") = .error (.wrongPublicKeys ["AB"]))) :=
  ⟨by decide, verifyBlob_iff_intersects [] ["AB"] none (some "ab") ["AB"] (by decide)⟩

/-- Claim C6 counterexample: the observed signer fingerprints are *not*
normalised before comparison — with trusted subkey fingerprint `abc`
(uppercased to `ABC`), an observed signer reported as `abc` fails while the
case variant `ABC` succeeds, so `verify` does not give the same result for
every case variant of the same observed fingerprint. -/
theorem verifyBlob_signer_case_sensitive :
    verifyBlob [] ["abc"] none (some "abc") = .error (.wrongPublicKeys ["abc"]) ∧
      verifyBlob [] ["ABC"] none (some "abc") = .ok true :=
  ⟨by decide, by decide⟩

/-- Claim C6 (amended): the *trusted* fingerprint inputs (the primary key
fingerprint and the explicit subkey fingerprint) are uppercased before use,
so `verifyBlob` gives the same result for any case variants of them; the
observed signer fingerprints are compared verbatim. -/
theorem verifyBlob_trusted_case_insensitive (keys : List GpgKey) (signatures : List String)
    (kf₁ kf₂ skf₁ skf₂ : Option String)
    (hkf : kf₁.map pyUpper = kf₂.map pyUpper) (hskf : skf₁.map pyUpper = skf₂.map pyUpper) :
    verifyBlob keys signatures kf₁ skf₁ = verifyBlob keys signatures kf₂ skf₂ := by
  unfold verifyBlob
  rw [allowedFingerprints_congr keys kf₁ kf₂ skf₁ skf₂ hkf hskf]

/-- Claim C6 witness: the key-fingerprint case variants `aB` and `Ab` give
the same verification result against a concrete keyring. -/
theorem verifyBlob_trusted_case_insensitive_witness :
    ((some "aB").map pyUpper = (some "Ab").map pyUpper) ∧
      verifyBlob [⟨"AB", ["AB"]⟩] ["AB"] (some "aB") none =
        verifyBlob [⟨"AB", ["AB"]⟩] ["AB"] (some "Ab") none :=
  ⟨by decide,
    verifyBlob_trusted_case_insensitive [⟨"AB", ["AB"]⟩] ["AB"]
      (some "aB") (some "Ab") none none (by decide) rfl⟩

/-- Claim C2: once the manifest is signature-verified, parsed, and holds
digest `d` for the archive's filename, the pipeline succeeds with the local
archive path exactly when the downloaded artifact's computed digest equals
`d` up to character case, and any difference raises the bad-hash exception
(the code's `HashMismatchError`) with no path returned. -/
theorem doBuildFetch_hash_check (keys : List GpgKey) (signatures : List String)
    (kf : Option String) (manifestText archiveFileName actualFileHash archPath : String)
    (hashes : List (List Char × List Char)) (d : List Char)
    (hverify : verifyBlob keys signatures kf none = .ok true)
    (hparse : parseHashesFile manifestText = .ok hashes)
    (hlookup : lookupD hashes archiveFileName.data = some d) :
    (doBuildFetch keys signatures kf manifestText archiveFileName actualFileHash archPath =
        .ok archPath ↔ charLower actualFileHash.data = charLower d) ∧
      (charLower actualFileHash.data ≠ charLower d →
        doBuildFetch keys signatures kf manifestText archiveFileName actualFileHash archPath =
          .error .badHash) := by
  have hred : doBuildFetch keys signatures kf manifestText archiveFileName actualFileHash archPath =
      if charLower actualFileHash.data ≠ charLower d then .error .badHash else .ok archPath := by
    unfold doBuildFetch
    simp only [hverify, hparse, hlookup]
  rw [hred]
  by_cases h : charLower actualFileHash.data = charLower d
  · rw [if_neg (not_not_intro h)]
    exact ⟨⟨fun _ => h, fun _ => rfl⟩, fun hn => absurd h hn⟩
  · rw [if_pos h]
    exact ⟨⟨fun he => absurd he (by simp), fun he => absurd he h⟩, fun _ => rfl⟩

/-- Claim C2 witness: the spec's end-to-end scenario — manifest
`abc123 SHA-256 foo.tar.gz\n`, signature by a trusted fingerprint, artifact
digest `ABC123` — succeeds up to case, and a differing digest raises the
bad-hash exception. -/
theorem doBuildFetch_hash_check_witness :
    (verifyBlob [⟨"AA", ["AA"]⟩] ["AA"] (some "aa") none = .ok true ∧
        parseHashesFile "abc123 SHA-256 foo.tar.gz\n" = .ok [("foo.tar.gz".data, "abc123".data)] ∧
        lookupD [("foo.tar.gz".data, "abc123".data)] "foo.tar.gz".data = some "abc123".data) ∧
      ((doBuildFetch [⟨"AA", ["AA"]⟩] ["AA"] (some "aa") "abc123 SHA-256 foo.tar.gz\n"
            "foo.tar.gz" "ABC123" "downloads/x86_64.tar.gz" = .ok "downloads/x86_64.tar.gz" ↔
          charLower "ABC123".data = charLower "abc123".data) ∧
        (charLower "ABC123".data ≠ charLower "abc123".data →
          doBuildFetch [⟨"AA", ["AA"]⟩] ["AA"] (some "aa") "abc123 SHA-256 foo.tar.gz\n"
            "foo.tar.gz" "ABC123" "downloads/x86_64.tar.gz" = .error .badHash)) :=
  ⟨⟨by decide, by decide, by decide⟩,
    doBuildFetch_hash_check [⟨"AA", ["AA"]⟩] ["AA"] (some "aa") "abc123 SHA-256 foo.tar.gz"
      "foo.tar.gz" "ABC123" "downloads/x86_64.tar.gz" [("foo.tar.gz".data, "abc123".data)]
      "abc123".data (by decide) (by decide) (by decide)⟩

/-! ### Ordering lemmas -/

lemma tupGT_iff (p q : Nat × Nat) :
    tupGT p q = true ↔ (q.1 < p.1 ∨ (p.1 = q.1 ∧ q.2 < p.2)) := by
  simp [tupGT]

lemma tupGT_irrefl (p : Nat × Nat) : tupGT p p = false := by
  simp [tupGT]

lemma tupGT_trans (p q r : Nat × Nat) (h1 : tupGT p q = true) (h2 : tupGT q r = true) :
    tupGT p r = true := by
  rw [tupGT_iff] at h1 h2 ⊢
  omega

lemma tupGT_total (p q : Nat × Nat) (h1 : tupGT p q = false) (h2 : tupGT q p = false) :
    p = q := by
  have n1 : ¬ tupGT p q = true := by rw [h1]; simp
  have n2 : ¬ tupGT q p = true := by rw [h2]; simp
  rw [tupGT_iff] at n1 n2
  have he1 : p.1 = q.1 := by omega
  have he2 : p.2 = q.2 := by omega
  exact Prod.ext he1 he2

lemma dtGT_congr_left (a b c : DownloadTarget) (h : a.cmpTuple = b.cmpTuple) :
    dtGT a c = dtGT b c := by
  unfold dtGT
  rw [h]

lemma pyMax_spec (acc : DownloadTarget) (l : List DownloadTarget) :
    pyMax acc l ∈ acc :: l ∧ ∀ x ∈ acc :: l, dtGT x (pyMax acc l) = false := by
  induction l generalizing acc with
  | nil =>
    refine ⟨List.mem_cons_self _ _, ?_⟩
    intro x hx
    rcases List.mem_cons.mp hx with he | hx2
    · rw [he]
      exact tupGT_irrefl _
    · simp at hx2
  | cons y ys ih =>
    by_cases hgt : dtGT y acc = true
    · have heq : pyMax acc (y :: ys) = pyMax y ys := by
        show pyMax (if dtGT y acc then y else acc) ys = pyMax y ys
        rw [if_pos hgt]
      obtain ⟨hmem, hmax⟩ := ih y
      rw [heq]
      refine ⟨List.mem_cons_of_mem _ hmem, ?_⟩
      intro x hx
      rcases List.mem_cons.mp hx with he | hx2
      · subst he
        cases hb : dtGT x (pyMax y ys) with
        | false => rfl
        | true =>
          have hym : dtGT y (pyMax y ys) = true := tupGT_trans _ _ _ hgt hb
          have hcontra := hmax y (List.mem_cons_self _ _)
          rw [hcontra] at hym
          exact hym.symm
      · exact hmax x hx2
    · have hgtf : dtGT y acc = false := by
        cases hb : dtGT y acc with
        | false => rfl
        | true => exact absurd hb hgt
      have heq : pyMax acc (y :: ys) = pyMax acc ys := by
        show pyMax (if dtGT y acc then y else acc) ys = pyMax acc ys
        rw [if_neg hgt]
      obtain ⟨hmem, hmax⟩ := ih acc
      rw [heq]
      constructor
      · rcases List.mem_cons.mp hmem with he | hm2
        · rw [he]; exact List.mem_cons_self _ _
        · exact List.mem_cons_of_mem _ (List.mem_cons_of_mem _ hm2)
      · intro x hx
        rcases List.mem_cons.mp hx with he | hx2
        · subst he
          exact hmax x (List.mem_cons_self _ _)
        rcases List.mem_cons.mp hx2 with he2 | hx3
        · subst he2
          cases hb : dtGT x (pyMax acc ys) with
          | false => rfl
          | true =>
            have hacc := hmax acc (List.mem_cons_self _ _)
            by_cases hga : dtGT acc x = true
            · have : dtGT acc (pyMax acc ys) = true := tupGT_trans _ _ _ hga hb
              rw [hacc] at this
              exact this.symm
            · have hgaf : dtGT acc x = false := by
                cases hb2 : dtGT acc x with
                | false => rfl
                | true => exact absurd hb2 hga
              have hteq : acc.cmpTuple = x.cmpTuple := tupGT_total _ _ hgaf hgtf
              have hcongr := dtGT_congr_left acc x (pyMax acc ys) hteq
              rw [hb, hacc] at hcongr
              exact hcongr.symm
        · exact hmax x (List.mem_cons_of_mem _ hx3)

/-- Claim C5: the comparison selecting the latest target orders targets by
the `(createdAt, publishedAt)` tuple lexicographically — `publishedAt`
decides only on equal `createdAt` — the order is transitive and total up to
equal key tuples, and Python's `max` over a nonempty target list returns an
element no other element exceeds, so the selection is well defined. -/
theorem downloadTarget_order_max :
    (∀ a b : DownloadTarget, dtGT a b = true ↔
        (b.created < a.created ∨ (b.created = a.created ∧ b.published < a.published))) ∧
      (∀ a b c : DownloadTarget, dtGT a b = true → dtGT b c = true → dtGT a c = true) ∧
      (∀ a b : DownloadTarget,
        dtGT a b = true ∨ dtGT b a = true ∨ a.cmpTuple = b.cmpTuple) ∧
      (∀ (first : DownloadTarget) (rest : List DownloadTarget),
        pyMax first rest ∈ first :: rest ∧
          ∀ x ∈ first :: rest, dtGT x (pyMax first rest) = false) := by
  refine ⟨?_, ?_, ?_, pyMax_spec⟩
  · intro a b
    show tupGT a.cmpTuple b.cmpTuple = true ↔ _
    rw [tupGT_iff]
    unfold DownloadTarget.cmpTuple
    constructor
    · intro h2
      rcases h2 with h2 | h2
      · exact Or.inl h2
      · exact Or.inr ⟨h2.1.symm, h2.2⟩
    · intro h2
      rcases h2 with h2 | h2
      · exact Or.inl h2
      · exact Or.inr ⟨h2.1.symm, h2.2⟩
  · intro a b c h1 h2
    exact tupGT_trans _ _ _ h1 h2
  · intro a b
    cases h1 : dtGT a b with
    | true => exact Or.inl rfl
    | false =>
      cases h2 : dtGT b a with
      | true => exact Or.inr (Or.inl rfl)
      | false => exact Or.inr (Or.inr (tupGT_total _ _ h1 h2))

/-- Claim C5 witness: on three concrete targets the order is the expected
lexicographic one (transitivity instantiated), and `max` picks a member of
the list that no element exceeds. -/
theorem downloadTarget_order_max_witness :
    dtGT (⟨"c", "3", false, 3, 6, []⟩ : DownloadTarget) (⟨"a", "1", false, 1, 5, []⟩ : DownloadTarget) = true ∧
      (pyMax (⟨"a", "1", false, 1, 5, []⟩ : DownloadTarget)
          [⟨"c", "3", false, 3, 6, []⟩, ⟨"b", "2", false, 2, 9, []⟩] ∈
        (⟨"a", "1", false, 1, 5, []⟩ : DownloadTarget) ::
          [⟨"c", "3", false, 3, 6, []⟩, ⟨"b", "2", false, 2, 9, []⟩]) :=
  ⟨downloadTarget_order_max.2.1 ⟨"c", "3", false, 3, 6, []⟩ ⟨"b", "2", false, 2, 9, []⟩
      ⟨"a", "1", false, 1, 5, []⟩ (by decide) (by decide),
    (downloadTarget_order_max.2.2.2 ⟨"a", "1", false, 1, 5, []⟩
      [⟨"c", "3", false, 3, 6, []⟩, ⟨"b", "2", false, 2, 9, []⟩]).1⟩

/-! ### Release-catalogue lemmas -/

lemma mem_keys_dictSet {K V : Type} [DecidableEq K] (m : List (K × V)) (k q : K) (v : V) :
    q ∈ (dictSet m k v).map Prod.fst ↔ q = k ∨ q ∈ m.map Prod.fst := by
  induction m with
  | nil => simp [dictSet]
  | cons p rest ih =>
    obtain ⟨k₀, v₀⟩ := p
    by_cases h0 : k₀ = k
    · subst h0
      have hds : dictSet ((k₀, v₀) :: rest) k₀ v = (k₀, v) :: rest := by
        unfold dictSet
        rw [if_pos rfl]
      rw [hds]
      simp only [List.map_cons, List.mem_cons]
      tauto
    · have hds : dictSet ((k₀, v₀) :: rest) k v = (k₀, v₀) :: dictSet rest k v := by
        simp only [dictSet]
        rw [if_neg h0]
      rw [hds]
      simp only [List.map_cons, List.mem_cons, ih]
      tauto

lemma nodup_keys_dictSet {K V : Type} [DecidableEq K] (m : List (K × V)) (k : K) (v : V)
    (h : (m.map Prod.fst).Nodup) : ((dictSet m k v).map Prod.fst).Nodup := by
  induction m with
  | nil => simp [dictSet]
  | cons p rest ih =>
    obtain ⟨k₀, v₀⟩ := p
    simp only [List.map_cons, List.nodup_cons] at h
    by_cases h0 : k₀ = k
    · subst h0
      have hds : dictSet ((k₀, v₀) :: rest) k₀ v = (k₀, v) :: rest := by
        unfold dictSet
        rw [if_pos rfl]
      rw [hds]
      simp only [List.map_cons, List.nodup_cons]
      exact h
    · have hds : dictSet ((k₀, v₀) :: rest) k v = (k₀, v₀) :: dictSet rest k v := by
        simp only [dictSet]
        rw [if_neg h0]
      rw [hds]
      simp only [List.map_cons, List.nodup_cons]
      refine ⟨?_, ih h.2⟩
      intro hm
      rcases (mem_keys_dictSet rest k k₀ v).mp hm with he | hm2
      · exact h0 he
      · exact h.1 hm2

lemma mem_keys_addAsset (roleRxs : List (Option String × (String → Bool)))
    (files : List (Option String × DownloadTargetFile)) (a : RawAsset) (role : Option String) :
    role ∈ (addAsset roleRxs files a).map Prod.fst ↔
      role ∈ files.map Prod.fst ∨ ∃ p ∈ roleRxs, p.1 = role ∧ p.2 a.name = true := by
  unfold addAsset
  induction roleRxs generalizing files with
  | nil => simp
  | cons p ps ih =>
    simp only [List.foldl_cons]
    by_cases hm : p.2 a.name = true
    · rw [if_pos hm, ih (dictSet files p.1 (mkFile p.1 a)), mem_keys_dictSet]
      constructor
      · rintro ((he | hf) | ⟨q, hq, hr, hqm⟩)
        · exact Or.inr ⟨p, List.mem_cons_self _ _, he.symm, hm⟩
        · exact Or.inl hf
        · exact Or.inr ⟨q, List.mem_cons_of_mem _ hq, hr, hqm⟩
      · rintro (hf | ⟨q, hq, hr, hqm⟩)
        · exact Or.inl (Or.inr hf)
        · rcases List.mem_cons.mp hq with rfl | hq2
          · exact Or.inl (Or.inl hr.symm)
          · exact Or.inr ⟨q, hq2, hr, hqm⟩
    · rw [if_neg hm, ih files]
      constructor
      · rintro (hf | ⟨q, hq, hr, hqm⟩)
        · exact Or.inl hf
        · exact Or.inr ⟨q, List.mem_cons_of_mem _ hq, hr, hqm⟩
      · rintro (hf | ⟨q, hq, hr, hqm⟩)
        · exact Or.inl hf
        · rcases List.mem_cons.mp hq with rfl | hq2
          · exact absurd hqm hm
          · exact Or.inr ⟨q, hq2, hr, hqm⟩

lemma nodup_keys_addAsset (roleRxs : List (Option String × (String → Bool)))
    (files : List (Option String × DownloadTargetFile)) (a : RawAsset)
    (h : (files.map Prod.fst).Nodup) : ((addAsset roleRxs files a).map Prod.fst).Nodup := by
  unfold addAsset
  induction roleRxs generalizing files with
  | nil => simpa using h
  | cons p ps ih =>
    simp only [List.foldl_cons]
    by_cases hm : p.2 a.name = true
    · rw [if_pos hm]
      exact ih _ (nodup_keys_dictSet files p.1 _ h)
    · rw [if_neg hm]
      exact ih _ h

lemma mem_keys_buildFiles_aux (assets : List RawAsset)
    (roleRxs : List (Option String × (String → Bool)))
    (init : List (Option String × DownloadTargetFile)) (role : Option String) :
    role ∈ ((assets.foldl (addAsset roleRxs) init).map Prod.fst) ↔
      role ∈ init.map Prod.fst ∨
        ∃ p ∈ roleRxs, p.1 = role ∧ ∃ a ∈ assets, p.2 a.name = true := by
  induction assets generalizing init with
  | nil => simp
  | cons a as ih =>
    simp only [List.foldl_cons]
    rw [ih (addAsset roleRxs init a), mem_keys_addAsset]
    constructor
    · rintro ((hf | ⟨p, hp, hr, hpm⟩) | ⟨p, hp, hr, a2, ha2, hm2⟩)
      · exact Or.inl hf
      · exact Or.inr ⟨p, hp, hr, a, List.mem_cons_self _ _, hpm⟩
      · exact Or.inr ⟨p, hp, hr, a2, List.mem_cons_of_mem _ ha2, hm2⟩
    · rintro (hf | ⟨p, hp, hr, a2, ha2, hm2⟩)
      · exact Or.inl (Or.inl hf)
      · rcases List.mem_cons.mp ha2 with rfl | ha3
        · exact Or.inl (Or.inr ⟨p, hp, hr, hm2⟩)
        · exact Or.inr ⟨p, hp, hr, a2, ha3, hm2⟩

lemma mem_keys_buildFiles (roleRxs : List (Option String × (String → Bool)))
    (assets : List RawAsset) (role : Option String) :
    role ∈ (buildFiles roleRxs assets).map Prod.fst ↔
      ∃ p ∈ roleRxs, p.1 = role ∧ ∃ a ∈ assets, p.2 a.name = true := by
  unfold buildFiles
  rw [mem_keys_buildFiles_aux]
  simp

lemma nodup_keys_buildFiles (roleRxs : List (Option String × (String → Bool)))
    (assets : List RawAsset) : ((buildFiles roleRxs assets).map Prod.fst).Nodup := by
  unfold buildFiles
  suffices h : ∀ init : List (Option String × DownloadTargetFile), (init.map Prod.fst).Nodup →
      ((assets.foldl (addAsset roleRxs) init).map Prod.fst).Nodup by
    exact h [] (by simp)
  induction assets with
  | nil => intro init h; simpa using h
  | cons a as ih =>
    intro init h
    simp only [List.foldl_cons]
    exact ih _ (nodup_keys_addAsset roleRxs init a h)

lemma keys_full_of_length {α : Type} [DecidableEq α] (l₁ l₂ : List α)
    (h1 : l₁.Nodup) (h2 : l₂.Nodup) (hsub : ∀ x ∈ l₁, x ∈ l₂) :
    l₁.length = l₂.length ↔ ∀ x ∈ l₂, x ∈ l₁ := by
  constructor
  · intro hlen x hx
    have hsubf : l₁.toFinset ⊆ l₂.toFinset := by
      intro y hy
      rw [List.mem_toFinset] at hy ⊢
      exact hsub y hy
    have hcard : l₂.toFinset.card ≤ l₁.toFinset.card := by
      rw [List.toFinset_card_of_nodup h1, List.toFinset_card_of_nodup h2, hlen]
    have heq := Finset.eq_of_subset_of_card_le hsubf hcard
    have hx2 : x ∈ l₂.toFinset := List.mem_toFinset.mpr hx
    rw [← heq] at hx2
    exact List.mem_toFinset.mp hx2
  · intro hall
    have hperm : l₁.Perm l₂ :=
      (List.perm_ext_iff_of_nodup h1 h2).mpr (fun x => ⟨hsub x, hall x⟩)
    exact hperm.length_eq

lemma key_unique {K V : Type} (l : List (K × V)) (h : (l.map Prod.fst).Nodup)
    (p q : K × V) (hp : p ∈ l) (hq : q ∈ l) (he : p.1 = q.1) : p = q := by
  induction l with
  | nil => simp at hp
  | cons x xs ih =>
    simp only [List.map_cons, List.nodup_cons] at h
    rcases List.mem_cons.mp hp with rfl | hp2
    · rcases List.mem_cons.mp hq with rfl | hq2
      · rfl
      · exact absurd (he ▸ List.mem_map_of_mem Prod.fst hq2) h.1
    · rcases List.mem_cons.mp hq with rfl | hq2
      · exact absurd (he ▸ List.mem_map_of_mem Prod.fst hp2) (by rw [he] at *; exact h.1)
      · exact ih h.2 hp2 hq2

lemma processRelease_some_length (titleRx : Option (String → Bool))
    (tagRx : String → Option String) (roleRxs : List (Option String × (String → Bool)))
    (r : RawRelease) (t : DownloadTarget)
    (h : processRelease titleRx tagRx roleRxs r = some t) :
    t.files.length = roleRxs.length := by
  unfold processRelease at h
  by_cases h1 : titlePass titleRx r.name = true
  · rw [if_pos h1] at h
    cases hv : tagRx r.tag with
    | none =>
      simp only [hv] at h
      exact absurd h (by simp)
    | some v =>
      simp only [hv] at h
      by_cases h2 : (buildFiles roleRxs r.assets).length = roleRxs.length
      · rw [if_pos h2] at h
        have ht := Option.some.inj h
        rw [← ht]
        exact h2
      · rw [if_neg h2] at h
        exact absurd h (by simp)
  · rw [if_neg h1] at h
    exact absurd h (by simp)

/-! ### Theorems settling the release-catalogue claim -/

/-- Claim C4 counterexample: a release in which *two* assets match the single
required role still yields a target (the later asset wins), so "yielded iff
every required role matched exactly one asset" fails — the code only
requires at least one match per role. -/
theorem processRelease_yields_despite_double_match :
    (processRelease none (fun s => if s = "v1.0" then some "1.0" else none)
          [(some "binary", fun _ => true)]
          ⟨"r1", "v1.0", false, 0, 0, [⟨"a1", 1, 1, "u1"⟩, ⟨"a2", 2, 2, "u2"⟩]⟩).isSome = true ∧
      matchCount [⟨"a1", 1, 1, "u1"⟩, ⟨"a2", 2, 2, "u2"⟩] (fun _ => true) = 2 :=
  ⟨rfl, rfl⟩

/-- Claim C4 (amended): for a release that passes the title and tag filters,
a ReleaseTarget is yielded iff every required role's pattern matched *at
least one* asset (when several match, the last matching asset wins), and
every target yielded by `getTargets` carries exactly
`len(roleToFilenamePattern)` files — a partial asset set is never produced. -/
theorem getTargets_yield_iff (titleRx : Option (String → Bool))
    (tagRx : String → Option String) (roleRxs : List (Option String × (String → Bool)))
    (r : RawRelease) (hnd : (roleRxs.map Prod.fst).Nodup)
    (htitle : titlePass titleRx r.name = true)
    (htag : (tagRx r.tag).isSome = true) :
    ((processRelease titleRx tagRx roleRxs r).isSome = true ↔
        ∀ p ∈ roleRxs, ∃ a ∈ r.assets, p.2 a.name = true) ∧
      ∀ (releases : List RawRelease) (t : DownloadTarget),
        t ∈ getTargets titleRx tagRx roleRxs releases → t.files.length = roleRxs.length := by
  constructor
  · obtain ⟨v, hv⟩ := Option.isSome_iff_exists.mp htag
    have hkey : (buildFiles roleRxs r.assets).length = roleRxs.length ↔
        ∀ p ∈ roleRxs, ∃ a ∈ r.assets, p.2 a.name = true := by
      have hnodupF := nodup_keys_buildFiles roleRxs r.assets
      have hsub : ∀ x ∈ (buildFiles roleRxs r.assets).map Prod.fst,
          x ∈ roleRxs.map Prod.fst := by
        intro x hx
        rcases (mem_keys_buildFiles roleRxs r.assets x).mp hx with ⟨p, hp, hr, _⟩
        exact hr ▸ List.mem_map_of_mem Prod.fst hp
      have hfull := keys_full_of_length _ _ hnodupF hnd hsub
      constructor
      · intro hl p hp
        have hlenkeys : ((buildFiles roleRxs r.assets).map Prod.fst).length =
            (roleRxs.map Prod.fst).length := by
          rw [List.length_map, List.length_map]
          exact hl
        have hmem : p.1 ∈ (buildFiles roleRxs r.assets).map Prod.fst :=
          hfull.mp hlenkeys p.1 (List.mem_map_of_mem Prod.fst hp)
        rcases (mem_keys_buildFiles roleRxs r.assets p.1).mp hmem with ⟨q, hq, hq1, a, ha, hqm⟩
        have hpq : q = p := key_unique roleRxs hnd q p hq hp hq1
        rw [← hpq]
        exact ⟨a, ha, hqm⟩
      · intro hall
        have hfull2 : ∀ x ∈ roleRxs.map Prod.fst,
            x ∈ (buildFiles roleRxs r.assets).map Prod.fst := by
          intro x hx
          rcases List.mem_map.mp hx with ⟨p, hp, hpx⟩
          rcases hall p hp with ⟨a, ha, ham⟩
          exact (mem_keys_buildFiles roleRxs r.assets x).mpr ⟨p, hp, hpx, a, ha, ham⟩
        have hlk := hfull.mpr hfull2
        rw [List.length_map, List.length_map] at hlk
        exact hlk
    have hred : processRelease titleRx tagRx roleRxs r =
        if (buildFiles roleRxs r.assets).length = roleRxs.length then
          some ⟨r.name, v, r.prerelease, r.created, r.published, buildFiles roleRxs r.assets⟩
        else none := by
      unfold processRelease
      rw [if_pos htitle]
      simp only [hv]
    rw [hred]
    by_cases h : (buildFiles roleRxs r.assets).length = roleRxs.length
    · rw [if_pos h]
      exact ⟨fun _ => hkey.mp h, fun _ => rfl⟩
    · rw [if_neg h]
      exact ⟨fun hc => absurd hc (by simp), fun hall => absurd (hkey.mpr hall) h⟩
  · intro releases t ht
    unfold getTargets at ht
    rcases List.mem_filterMap.mp ht with ⟨r2, _, hr2⟩
    exact processRelease_some_length titleRx tagRx roleRxs r2 t hr2

/-- Claim C4 witness: one required role, one matching asset — the target is
yielded, and every yielded target carries one file per required role. -/
theorem getTargets_yield_iff_witness :
    ((([(some "binary", fun _ => true)] :
          List (Option String × (String → Bool))).map Prod.fst).Nodup ∧
        titlePass none "r1" = true ∧
        ((fun s => if s = "v1.0" then some "1.0" else none) "v1.0" |>.isSome) = true) ∧
      (((processRelease none (fun s => if s = "v1.0" then some "1.0" else none)
            [(some "binary", fun _ => true)]
            ⟨"r1", "v1.0", false, 0, 0, [⟨"a1", 1, 1, "u1"⟩]⟩).isSome = true ↔
          ∀ p ∈ ([(some "binary", fun _ => true)] :
              List (Option String × (String → Bool))),
            ∃ a ∈ (⟨"r1", "v1.0", false, 0, 0, [⟨"a1", 1, 1, "u1"⟩]⟩ : RawRelease).assets,
              p.2 a.name = true) ∧
        ∀ (releases : List RawRelease) (t : DownloadTarget),
          t ∈ getTargets none (fun s => if s = "v1.0" then some "1.0" else none)
              [(some "binary", fun _ => true)] releases →
            t.files.length = ([(some "binary", fun _ => true)] :
              List (Option String × (String → Bool))).length) :=
  ⟨⟨by simp, rfl, rfl⟩,
    getTargets_yield_iff none (fun s => if s = "v1.0" then some "1.0" else none)
      [(some "binary", fun _ => true)] ⟨"r1", "v1.0", false, 0, 0, [⟨"a1", 1, 1, "u1"⟩]⟩
      (by simp) rfl rfl⟩
